import Mathlib

/-!
# Verification of the Calibre→Komga migration tool

Shallow embedding of `src/calibre2komga.py` (class `CalibreKomgaMigrator`).

Modelling conventions:
* Python strings are `List Char`; `s2l` converts a Lean string literal.
* Python `float` catalog values (`series_index`) are modelled as `ℚ`;
  the indices exercised by the spec have exact decimal representations.
* The filesystem is a `FS` record of directory paths, `(directory, name)`
  file pairs and a set of paths on which `mkdir`/`copy2` raises (modelling
  the `except Exception` branch of `migrate_book`).
* Log output is a list of structured `Event`s, one constructor per
  `logger.*` format string in the source.
-/

/-- Characters of a Lean string literal, used to write Python string data. -/
def s2l (s : String) : List Char := s.data

/-- Python `\s` on the ASCII range (space, tab, newline, CR, VT, FF). -/
def isPySpace (c : Char) : Bool :=
  c == ' ' || c == '\t' || c == '\n' || c == '\r' || c == '\x0b' || c == '\x0c'

/-- Python `\d` on the ASCII range. -/
def isPyDigit (c : Char) : Bool := '0' ≤ c && c ≤ '9'

/-- `true` iff the list is nonempty and its head satisfies `q`. -/
def headIs (q : Char → Bool) : List Char → Bool
  | [] => false
  | c :: _ => q c

/-- Strip trailing characters satisfying `q` (Python `rstrip`). -/
def rstripBy (q : Char → Bool) (s : List Char) : List Char :=
  (s.reverse.dropWhile q).reverse

/-- Python `str.strip()` (no argument): whitespace from both ends. -/
def pyStrip (s : List Char) : List Char :=
  (rstripBy isPySpace s).dropWhile isPySpace

/-- Strip trailing whitespace (Python `rstrip()` with no argument). -/
def rstripSp (s : List Char) : List Char := rstripBy isPySpace s

/--
One `re.sub(pattern, '', title)` pass of `clean_calibre_title`
(src/calibre2komga.py:141 and :144).  The pattern is
`\s*\(\d+\)\s*$` when `needSpace = false` and `\s+\(\d+\)\s*$` when
`needSpace = true`; at most one match (anchored at the end) exists, and the
leading `\s*`/`\s+` greedily absorbs all whitespace before `(`.
-/
def stripOnePass (needSpace : Bool) (s : List Char) : List Char :=
  match s.reverse.dropWhile isPySpace with
  | [] => s
  | c1 :: r2 =>
    if c1 = ')' then
      if headIs isPyDigit r2 then
        match r2.dropWhile isPyDigit with
        | [] => s
        | c2 :: r4 =>
          if c2 = '(' then
            if needSpace && !(headIs isPySpace r4) then s
            else (r4.dropWhile isPySpace).reverse
          else s
      else s
    else s

/-- `CalibreKomgaMigrator.clean_calibre_title` (src/calibre2komga.py:134-146). -/
def clean_calibre_title (title : List Char) : List Char :=
  if title.isEmpty then title
  else pyStrip (stripOnePass true (stripOnePass false title))

/-- The characters replaced by `_` in `sanitize_filename` (regex `[<>:"/\\|?*]`). -/
def isInvalidChar (c : Char) : Bool :=
  c == '<' || c == '>' || c == ':' || c == '"' || c == '/' || c == '\\' ||
  c == '|' || c == '?' || c == '*'

/-- The strip set of `sanitized.strip('. ')`: a dot or a space. -/
def stripCharsSet (c : Char) : Bool := c == '.' || c == ' '

/-- `CalibreKomgaMigrator.sanitize_filename` (src/calibre2komga.py:148-157). -/
def sanitize_filename (filename : List Char) : List Char :=
  let s1 := filename.map (fun c => if isInvalidChar c then '_' else c)
  let s2 := (rstripBy stripCharsSet s1).dropWhile stripCharsSet
  if s2.length > 100 then s2.take 100 else s2

/-- Fuel-driven helper for `natToChars`; any fuel above the argument gives
the digit string (see `natToCharsAux_fuel`). -/
def natToCharsAux : Nat → Nat → List Char
  | 0, _ => []
  | fuel + 1, n =>
    if n < 10 then [Nat.digitChar n]
    else natToCharsAux fuel (n / 10) ++ [Nat.digitChar (n % 10)]

/-- Decimal digits of a natural number, as Python `str` renders it. -/
def natToChars (n : Nat) : List Char := natToCharsAux (n + 1) n

/-- Python `str` of an integer. -/
def intToStr (n : ℤ) : List Char :=
  if n < 0 then '-' :: natToChars n.natAbs else natToChars n.natAbs

/-- Python `str.zfill`: left-pad with `'0'` to width `w`, after any sign. -/
def zfill (w : Nat) (s : List Char) : List Char :=
  if w ≤ s.length then s
  else
    match s with
    | [] => List.replicate w '0'
    | c :: t =>
      if c = '-' ∨ c = '+' then c :: (List.replicate (w - s.length) '0' ++ t)
      else List.replicate (w - s.length) '0' ++ s

/-- Round the fraction `a / b` (with `b > 0`) to the nearest integer, ties
to even — the rounding Python `format` applies when printing one decimal
digit. -/
def rneFrac (a : ℤ) (b : ℕ) : ℤ :=
  let f : ℤ := Int.ediv a (b : ℤ)
  let r : ℤ := a - (b : ℤ) * f
  if 2 * r < (b : ℤ) then f
  else if (b : ℤ) < 2 * r then f + 1
  else if f % 2 = 0 then f else f + 1

/-- Python `f"{q:05.1f}"` for the rationals modelling catalog floats: round
`10 * q` to a whole number of tenths (ties to even), then print with one
fractional digit, zero-padded to a *total* width of 5 characters (point
included).  Negative values carry a leading sign (calibre series indices,
the only inputs reaching this format, are nonnegative). -/
def format05_1f (q : ℚ) : List Char :=
  let n : ℤ := rneFrac (10 * q.num) q.den
  let m : Nat := n.natAbs
  let body : List Char := natToChars (m / 10) ++ '.' :: natToChars (m % 10)
  if q < 0 then zfill 5 ('-' :: body) else zfill 5 body

/-- `parent / child` on `pathlib` paths, modelled as flat strings. -/
def pathJoin (a b : List Char) : List Char := a ++ '/' :: b

/-- `pathlib.PurePath(name).suffix` for a bare file name (the source only
applies it to `ebook_file.name`, which contains no separator): the part from
the last dot on, provided that dot is neither the first nor the last
character. -/
def pathSuffix (name : List Char) : List Char :=
  let pre := name.reverse.takeWhile (fun c => !(c == '.'))
  if pre.length + 1 < name.length && 0 < pre.length then '.' :: pre.reverse
  else []

/-- `Path.relative_to`: strip `root ++ "/"` from the front, `none` when the
path is not below the root (`ValueError` in Python). -/
def relativeTo (root p : List Char) : Option (List Char) :=
  if root.isPrefixOf p then
    match p.drop root.length with
    | '/' :: rest => some rest
    | [] => some ['.']
    | _ => none
  else none

/-- One record of `metadata_cache` (src/calibre2komga.py:106-113). -/
structure Metadata where
  id : ℤ
  title : List Char
  author : List Char
  series : Option (List Char)
  series_index : Option ℚ
  formats : List (List Char)
deriving DecidableEq

/-- `CalibreKomgaMigrator.get_series_folder_name` (src/calibre2komga.py:159-169).
`if series:` is Python truthiness: present and nonempty. -/
def get_series_folder_name (md : Metadata) : List Char :=
  match md.series with
  | some s =>
    if s.isEmpty then sanitize_filename md.author
    else sanitize_filename (md.author ++ s2l " - " ++ s)
  | none => sanitize_filename md.author

/-- `CalibreKomgaMigrator.get_file_name` (src/calibre2komga.py:171-197).
`if series and series_index:` requires a nonempty series string and a
nonzero index; `series_index == int(series_index)` holds exactly for
integral values (`den = 1`). -/
def get_file_name (md : Metadata) (original_filename : List Char) : List Char :=
  let clean_title := clean_calibre_title md.title
  let extension := pathSuffix original_filename
  let filename :=
    match md.series, md.series_index with
    | some s, some si =>
      if s ≠ [] ∧ si ≠ 0 then
        let volume_num :=
          if si.den = 1 then zfill 2 (intToStr si.num)
          else (format05_1f si).map (fun c => if c = '.' then '_' else c)
        s2l "Volume " ++ volume_num ++ s2l " - " ++ clean_title
      else clean_title
    | _, _ => clean_title
  sanitize_filename filename ++ extension

/-- First-match association-list lookup, modelling `dict.get` on the
insertion-ordered `metadata_cache` (keys are unique, one per book row). -/
def lookupA (l : List (List Char × Metadata)) (k : List Char) : Option Metadata :=
  match l with
  | [] => none
  | (k', v) :: t => if k' = k then some v else lookupA t k

/-- Python's `needle in haystack` substring test. -/
def isSubstring (n : List Char) : List Char → Bool
  | [] => n.isEmpty
  | c :: t => n.isPrefixOf (c :: t) || isSubstring n t

/-- `str.lower()` (ASCII case folding suffices for the modelled data). -/
def lowerL (s : List Char) : List Char := s.map Char.toLower

/-- The two supported ebook formats (src/calibre2komga.py:35). -/
def supportedFormats : List (List Char) := [s2l ".epub", s2l ".kepub"]

/-- The filesystem: directory paths, `(directory, file name)` pairs, and the
paths on which `mkdir`/`copy2` raises (modelling the exceptions caught by
`migrate_book`'s `try`). -/
structure FS where
  dirs : List (List Char)
  files : List (List Char × List Char)
  failing : List (List Char)
deriving DecidableEq

/-- The migration counters (src/calibre2komga.py:38-43). -/
structure Stats where
  total_books : Nat
  migrated_books : Nat
  skipped_books : Nat
  errors : Nat
deriving DecidableEq

/-- One structured log line per `logger.*` format string in the source. -/
inductive Event where
  | infoStart
  | errValidate
  | warnBookPathMissing (p : List Char)
  | warnNoMetadata (p : List Char)
  | warnNoFiles (p : List Char)
  | infoMigrating (folder : List Char)
  | warnFileExists (p : List Char)
  | debugCopied (p : List Char)
  | errMigrating (p : List Char)
  | wouldCreate (p : List Char)
  | summaryHeader
  | lineTotal (n : Nat)
  | lineMigrated (n : Nat)
  | lineSkipped (n : Nat)
  | lineErrors (n : Nat)
  | lineSuccessRate (q : ℚ)
deriving DecidableEq

/-- The mutable run state: `self.stats`, the filesystem, the log. -/
structure RunState where
  stats : Stats
  fs : FS
  log : List Event
deriving DecidableEq

/-- The migrator's constructor arguments plus the loaded metadata cache
(`CalibreKomgaMigrator.__init__`; the sqlite load of
`load_calibre_metadata` is abstracted into the given cache). -/
structure Migrator where
  calibre_path : List Char
  komga_path : List Char
  dry_run : Bool
  metadata_cache : List (List Char × Metadata)

/-- `p.exists()`: the path is a directory or a file. -/
def pathExistsB (fs : FS) (p : List Char) : Bool :=
  fs.dirs.contains p || fs.files.any (fun dn => pathJoin dn.1 dn.2 == p)

/-- `p.is_dir()`. -/
def isDirB (fs : FS) (p : List Char) : Bool := fs.dirs.contains p

/-- `dest_file.exists()` for `series_path / new_filename`. -/
def destExists (fs : FS) (dir name : List Char) : Bool :=
  fs.files.contains (dir, name) || fs.dirs.contains (pathJoin dir name)

/-- `mkdir(parents=True, exist_ok=True)` on an already-validated parent. -/
def mkdirP (fs : FS) (p : List Char) : FS :=
  if p ∈ fs.dirs then fs else { fs with dirs := fs.dirs ++ [p] }

/-- `CalibreKomgaMigrator.get_book_metadata` (src/calibre2komga.py:123-132). -/
def get_book_metadata (M : Migrator) (book_path : List Char) : Option Metadata :=
  match relativeTo M.calibre_path book_path with
  | none => none
  | some rel => lookupA M.metadata_cache (rel.map (fun c => if c = '\\' then '/' else c))

/-- `CalibreKomgaMigrator.find_ebook_files` (src/calibre2komga.py:199-205):
names of the directory's immediate files whose lower-cased suffix is a
supported format. -/
def find_ebook_files (fs : FS) (book_path : List Char) : List (List Char) :=
  (fs.files.filter
    (fun dn => dn.1 == book_path && supportedFormats.contains (lowerL (pathSuffix dn.2)))).map
    Prod.snd

/-- The copy loop of `migrate_book`'s `try` block
(src/calibre2komga.py:246-256).  Returns the filesystem and log after the
loop together with `false` when `copy2` raised (partial effects are kept,
as in Python). -/
def copyLoop (md : Metadata) (series_path : List Char) :
    List (List Char) → FS → List Event → FS × List Event × Bool
  | [], fs, log => (fs, log, true)
  | f :: rest, fs, log =>
    let n := get_file_name md f
    let destP := pathJoin series_path n
    if destExists fs series_path n then
      copyLoop md series_path rest fs (log ++ [Event.warnFileExists destP])
    else if destP ∈ fs.failing then (fs, log, false)
    else
      copyLoop md series_path rest
        { fs with files := fs.files ++ [(series_path, n)] }
        (log ++ [Event.debugCopied destP])

/-- `CalibreKomgaMigrator.migrate_book` (src/calibre2komga.py:207-271). -/
def migrate_book (M : Migrator) (book_path : List Char) (st : RunState) :
    RunState × Bool :=
  match get_book_metadata M book_path with
  | none =>
    ({ st with
        stats := { st.stats with skipped_books := st.stats.skipped_books + 1 },
        log := st.log ++ [Event.warnNoMetadata book_path] }, false)
  | some md =>
    let ebook_files := find_ebook_files st.fs book_path
    if ebook_files.isEmpty then
      ({ st with
          stats := { st.stats with skipped_books := st.stats.skipped_books + 1 },
          log := st.log ++ [Event.warnNoFiles book_path] }, false)
    else
      let series_folder := get_series_folder_name md
      let series_path := pathJoin M.komga_path series_folder
      let log1 := st.log ++ [Event.infoMigrating series_folder]
      if M.dry_run = false then
        if series_path ∈ st.fs.failing then
          ({ stats := { st.stats with errors := st.stats.errors + 1 },
             fs := st.fs, log := log1 ++ [Event.errMigrating book_path] }, false)
        else
          match copyLoop md series_path ebook_files (mkdirP st.fs series_path) log1 with
          | (fs2, log2, true) =>
            ({ stats := { st.stats with migrated_books := st.stats.migrated_books + 1 },
               fs := fs2, log := log2 }, true)
          | (fs2, log2, false) =>
            ({ stats := { st.stats with errors := st.stats.errors + 1 },
               fs := fs2, log := log2 ++ [Event.errMigrating book_path] }, false)
      else
        ({ st with
            stats := { st.stats with migrated_books := st.stats.migrated_books + 1 },
            log := log1 ++ ebook_files.map
              (fun f => Event.wouldCreate (pathJoin series_path (get_file_name md f))) },
         true)

/-- The author-filter rejection test of `migrate_library`
(src/calibre2komga.py:295): a truthy filter that is not a case-insensitive
substring of the record's author. -/
def filterRejects (af : Option (List Char)) (author : List Char) : Bool :=
  match af with
  | none => false
  | some f => !f.isEmpty && !(isSubstring (lowerL f) (lowerL author))

/-- The book loop of `migrate_library` (src/calibre2komga.py:287-299). -/
def processBooks (M : Migrator) (author_filter : Option (List Char)) :
    List (List Char × Metadata) → RunState → RunState
  | [], st => st
  | (path_key, md) :: rest, st =>
    let book_path := pathJoin M.calibre_path path_key
    if !(isDirB st.fs book_path) then
      processBooks M author_filter rest
        { st with log := st.log ++ [Event.warnBookPathMissing book_path] }
    else if filterRejects author_filter md.author then
      processBooks M author_filter rest st
    else
      processBooks M author_filter rest
        (migrate_book M book_path
          { st with
              stats := { st.stats with total_books := st.stats.total_books + 1 } }).1

/-- `CalibreKomgaMigrator.validate_paths` (src/calibre2komga.py:49-68). -/
def validate_paths (M : Migrator) (st : RunState) : RunState × Bool :=
  if !(pathExistsB st.fs M.calibre_path) then
    ({ st with log := st.log ++ [Event.errValidate] }, false)
  else if !(isDirB st.fs M.calibre_path) then
    ({ st with log := st.log ++ [Event.errValidate] }, false)
  else if !(pathExistsB st.fs (pathJoin M.calibre_path (s2l "metadata.db"))) then
    ({ st with log := st.log ++ [Event.errValidate] }, false)
  else if M.dry_run then (st, true)
  else ({ st with fs := mkdirP st.fs M.komga_path }, true)

/-- Python `a / b` raising `ZeroDivisionError` on a zero divisor. -/
def pyDiv (a b : ℚ) : Except (List Char) ℚ :=
  if b = 0 then Except.error (s2l "ZeroDivisionError") else Except.ok (a / b)

/-- `CalibreKomgaMigrator.print_summary` (src/calibre2komga.py:303-313),
returning the rendered lines or a raised exception. -/
def print_summary (stats : Stats) : Except (List Char) (List Event) :=
  let base := [Event.summaryHeader, Event.lineTotal stats.total_books,
    Event.lineMigrated stats.migrated_books, Event.lineSkipped stats.skipped_books,
    Event.lineErrors stats.errors]
  if stats.total_books > 0 then
    match pyDiv (stats.migrated_books : ℚ) (stats.total_books : ℚ) with
    | Except.error e => Except.error e
    | Except.ok r => Except.ok (base ++ [Event.lineSuccessRate (r * 100)])
  else Except.ok base

/-- The event list of an `Except` result (empty on error). -/
def okEvents : Except (List Char) (List Event) → List Event
  | Except.ok l => l
  | Except.error _ => []

/-- `CalibreKomgaMigrator.migrate_library` (src/calibre2komga.py:273-301),
starting from the zeroed counters of `__init__`. -/
def migrate_library (M : Migrator) (author_filter : Option (List Char)) (fs : FS) :
    RunState :=
  let st0 : RunState := ⟨⟨0, 0, 0, 0⟩, fs, [Event.infoStart]⟩
  match validate_paths M st0 with
  | (st, false) => st
  | (st, true) =>
    let st := processBooks M author_filter M.metadata_cache st
    { st with log := st.log ++ okEvents (print_summary st.stats) }

/-- The destination paths a dry run announces with `[DRY RUN] Would create`. -/
def wouldCreatePaths (log : List Event) : List (List Char) :=
  log.filterMap (fun e => match e with | Event.wouldCreate p => some p | _ => none)

/-- The `(series directory, file name)` pairs `migrate_book` computes for a
book: one per discovered ebook file, named by the path resolver. -/
def plannedDests (M : Migrator) (fs : FS) (book_path : List Char) (md : Metadata) :
    List (List Char × List Char) :=
  (find_ebook_files fs book_path).map
    (fun f => (pathJoin M.komga_path (get_series_folder_name md), get_file_name md f))

/-- The rational 7/2, the spec's fractional example index 3.5. -/
def q7half : ℚ := ⟨7, 2, by decide, by decide⟩

/-- Concrete record for the missing-directory scenario. -/
def c6md : Metadata := ⟨1, s2l "T", s2l "A", none, none, []⟩

/-- Migrator whose only book has no source directory on disk. -/
def c6M : Migrator := ⟨s2l "cal", s2l "kom", false, [(s2l "b", c6md)]⟩

/-- Filesystem with a valid calibre root but no book directory. -/
def c6fs : FS := ⟨[s2l "cal"], [(s2l "cal", s2l "metadata.db")], []⟩

/-- Concrete record for the dry-run comparison scenario. -/
def c7md : Metadata := ⟨1, s2l "T", s2l "A", none, none, []⟩

/-- Dry-run migrator over a one-book library. -/
def c7Mdry : Migrator := ⟨s2l "c", s2l "k", true, [(s2l "b", c7md)]⟩

/-- The same migrator with dry-run off. -/
def c7Mreal : Migrator := ⟨s2l "c", s2l "k", false, [(s2l "b", c7md)]⟩

/-- Filesystem in which the book's destination file already exists. -/
def c7fs : FS :=
  ⟨[s2l "c", s2l "c/b"],
   [(s2l "c", s2l "metadata.db"), (s2l "c/b", s2l "x.epub"),
    (s2l "k/A", s2l "T.epub")], []⟩

/-- Two books by different authors, for the author-filter scenario. -/
def c8md1 : Metadata := ⟨1, s2l "T1", s2l "Alice", none, none, []⟩

/-- Second record of the author-filter scenario. -/
def c8md2 : Metadata := ⟨2, s2l "T2", s2l "Bob", none, none, []⟩

/-- Migrator over the two-author library (dry run). -/
def c8M : Migrator :=
  ⟨s2l "c", s2l "k", true, [(s2l "b1", c8md1), (s2l "b2", c8md2)]⟩

/-- Filesystem backing the two-author library. -/
def c8fs : FS :=
  ⟨[s2l "c", s2l "c/b1", s2l "c/b2"],
   [(s2l "c", s2l "metadata.db"), (s2l "c/b1", s2l "x.epub"),
    (s2l "c/b2", s2l "y.epub")], []⟩

section ListLemmas

variable {q : Char → Bool}

theorem dropWhile_cons_pos {a : Char} {l : List Char} (h : q a = true) :
    (a :: l).dropWhile q = l.dropWhile q := by
  simp [List.dropWhile, h]

theorem dropWhile_cons_neg {a : Char} {l : List Char} (h : q a = false) :
    (a :: l).dropWhile q = a :: l := by
  simp [List.dropWhile, h]

theorem dropWhile_append_all {l r : List Char} (h : ∀ c ∈ l, q c = true) :
    (l ++ r).dropWhile q = r.dropWhile q := by
  induction l with
  | nil => rfl
  | cons a t ih =>
    rw [List.cons_append, dropWhile_cons_pos (h a (by simp))]
    exact ih (fun c hc => h c (by simp [hc]))

theorem dropWhile_head_false {l t : List Char} {c : Char}
    (h : l.dropWhile q = c :: t) : q c = false := by
  induction l with
  | nil => simp [List.dropWhile] at h
  | cons a u ih =>
    by_cases ha : q a = true
    · exact ih (by rwa [dropWhile_cons_pos ha] at h)
    · rw [dropWhile_cons_neg (by simpa using ha)] at h
      cases h; simpa using ha

theorem dropWhile_idem {l : List Char} :
    (l.dropWhile q).dropWhile q = l.dropWhile q := by
  cases h : l.dropWhile q with
  | nil => rfl
  | cons c t => exact dropWhile_cons_neg (dropWhile_head_false h)

theorem length_dropWhile_le (l : List Char) :
    (l.dropWhile q).length ≤ l.length :=
  (List.dropWhile_suffix q).length_le

theorem mem_dropWhile {c : Char} {l : List Char} (h : c ∈ l.dropWhile q) :
    c ∈ l :=
  (List.dropWhile_suffix q).subset h

theorem mem_rstripBy {c : Char} {l : List Char} (h : c ∈ rstripBy q l) : c ∈ l := by
  unfold rstripBy at h
  rw [List.mem_reverse] at h
  simpa using mem_dropWhile h

theorem getLast?_dropWhile_of_ne_nil {l : List Char} (h : l.dropWhile q ≠ []) :
    (l.dropWhile q).getLast? = l.getLast? := by
  obtain ⟨t, ht⟩ := List.dropWhile_suffix (l := l) q
  conv_rhs => rw [← ht]
  exact (List.getLast?_append_of_ne_nil t h).symm

theorem rstripBy_getLast?_false {l : List Char} {c : Char}
    (h : (rstripBy q l).getLast? = some c) : q c = false := by
  unfold rstripBy at h
  rw [← List.head?_reverse, List.reverse_reverse] at h
  cases he : l.reverse.dropWhile q with
  | nil => rw [he] at h; simp at h
  | cons a t =>
    rw [he] at h
    simp only [List.head?] at h
    cases h
    exact dropWhile_head_false he

theorem rstripBy_idem {l : List Char} : rstripBy q (rstripBy q l) = rstripBy q l := by
  unfold rstripBy
  rw [List.reverse_reverse, dropWhile_idem]

theorem rstripBy_eq_self_of_getLast? {l : List Char}
    (h : ∀ c, l.getLast? = some c → q c = false) : rstripBy q l = l := by
  have hfix : l.reverse.dropWhile q = l.reverse := by
    cases hr : l.reverse with
    | nil => rfl
    | cons b u =>
      have hb : l.getLast? = some b := by rw [← List.head?_reverse, hr]; rfl
      exact dropWhile_cons_neg (h b hb)
  unfold rstripBy
  rw [hfix, List.reverse_reverse]

theorem head?_take {l : List Char} {n : Nat} (h : 0 < n) :
    (l.take n).head? = l.head? := by
  cases l with
  | nil => simp
  | cons a t => cases n with
    | zero => omega
    | succ m => simp [List.take]

theorem mem_take {c : Char} {l : List Char} {n : Nat} (h : c ∈ l.take n) :
    c ∈ l :=
  (List.take_sublist n l).subset h

end ListLemmas

section CleanTitleLemmas

theorem stripOnePass_match (b : Bool) (p w1 d w2 : List Char) (hd : d ≠ [])
    (hda : ∀ c ∈ d, isPyDigit c = true) (_hw1 : ∀ c ∈ w1, isPySpace c = true)
    (hw2 : ∀ c ∈ w2, isPySpace c = true)
    (hb : b = true → headIs isPySpace (w1.reverse ++ p.reverse) = true) :
    stripOnePass b (p ++ (w1 ++ '(' :: (d ++ ')' :: w2))) =
      ((w1.reverse ++ p.reverse).dropWhile isPySpace).reverse := by
  obtain ⟨d0, dt, hd0⟩ : ∃ d0 dt, d.reverse = d0 :: dt := by
    cases hrv : d.reverse with
    | nil =>
      exfalso
      exact hd (by simpa using congrArg List.reverse hrv)
    | cons x xs => exact ⟨x, xs, rfl⟩
  have hd0digit : isPyDigit d0 = true :=
    hda d0 (by rw [← List.mem_reverse, hd0]; simp)
  have hrev : (p ++ (w1 ++ '(' :: (d ++ ')' :: w2))).reverse
      = w2.reverse ++ ')' :: (d.reverse ++ '(' :: (w1.reverse ++ p.reverse)) := by
    simp [List.reverse_append]
  have hdw : (p ++ (w1 ++ '(' :: (d ++ ')' :: w2))).reverse.dropWhile isPySpace
      = ')' :: (d.reverse ++ '(' :: (w1.reverse ++ p.reverse)) := by
    rw [hrev, dropWhile_append_all (fun c hc => hw2 c (List.mem_reverse.mp hc)),
      dropWhile_cons_neg (by decide)]
  have hdig : (d.reverse ++ '(' :: (w1.reverse ++ p.reverse)).dropWhile isPyDigit
      = '(' :: (w1.reverse ++ p.reverse) := by
    rw [dropWhile_append_all (fun c hc => hda c (List.mem_reverse.mp hc)),
      dropWhile_cons_neg (by decide)]
  cases b with
  | false =>
    unfold stripOnePass
    simp only [hdw, hdig]
    rw [hd0]
    simp [headIs, hd0digit]
  | true =>
    obtain ⟨h0, t0, hsplit⟩ : ∃ h0 t0, w1.reverse ++ p.reverse = h0 :: t0 := by
      cases hx : w1.reverse ++ p.reverse with
      | nil =>
        have hh := hb rfl
        rw [hx] at hh
        simp [headIs] at hh
      | cons x xs => exact ⟨x, xs, rfl⟩
    have hsp : isPySpace h0 = true := by
      have hh := hb rfl
      rw [hsplit] at hh
      simpa [headIs] using hh
    unfold stripOnePass
    simp only [hdw, hdig]
    rw [hd0, hsplit]
    simp [headIs, hd0digit, hsp]

theorem stripOnePass_result (b : Bool) (s : List Char) :
    stripOnePass b s = s ∨ (stripOnePass b s).length + 3 ≤ s.length := by
  unfold stripOnePass
  cases hr1 : s.reverse.dropWhile isPySpace with
  | nil => left; rfl
  | cons c1 r2 =>
    have lenr1 : r2.length + 1 ≤ s.length := by
      have h := length_dropWhile_le (q := isPySpace) s.reverse
      rw [hr1] at h
      simpa using h
    by_cases hc1 : c1 = ')'
    · subst hc1
      by_cases h2 : headIs isPyDigit r2 = true
      · cases hr3 : r2.dropWhile isPyDigit with
        | nil => left; simp [h2, hr3]
        | cons c2 r4 =>
          obtain ⟨e, r2', he2⟩ : ∃ e r2', r2 = e :: r2' := by
            cases r2 with
            | nil => simp [headIs] at h2
            | cons x xs => exact ⟨x, xs, rfl⟩
          have hed : isPyDigit e = true := by
            rw [he2] at h2; simpa [headIs] using h2
          have lenr4 : r4.length + 2 ≤ r2.length := by
            have h := length_dropWhile_le (q := isPyDigit) r2'
            rw [he2, dropWhile_cons_pos hed] at hr3
            rw [hr3] at h
            rw [he2]
            simp only [List.length_cons] at h ⊢
            omega
          by_cases hc2 : c2 = '('
          · subst hc2
            by_cases h4 : (b && !(headIs isPySpace r4)) = true
            · left; simp [h2, hr3, h4]
            · right
              have hres : (r4.dropWhile isPySpace).length ≤ r4.length :=
                length_dropWhile_le r4
              simp only [h2, hr3, if_true, h4, if_false, eq_self_iff_true]
              simp only [Bool.not_eq_true] at h4
              simp [h4, List.length_reverse]
              omega
          · left; simp [h2, hr3, hc2]
      · left; simp [h2]
    · left; simp [hc1]

theorem stripOnePass_true_eq (s : List Char) :
    stripOnePass true s = s ∨ stripOnePass true s = stripOnePass false s := by
  unfold stripOnePass
  cases hr1 : s.reverse.dropWhile isPySpace with
  | nil => left; rfl
  | cons c1 r2 =>
    by_cases hc1 : c1 = ')'
    · subst hc1
      by_cases h2 : headIs isPyDigit r2 = true
      · cases hr3 : r2.dropWhile isPyDigit with
        | nil => left; simp [h2, hr3]
        | cons c2 r4 =>
          by_cases hc2 : c2 = '('
          · subst hc2
            by_cases h4 : headIs isPySpace r4 = true
            · right; simp [h2, hr3, h4]
            · left; simp [h2, hr3, h4]
          · left; simp [h2, hr3, hc2]
      · left; simp [h2]
    · left; simp [hc1]

theorem pyStrip_rstripSp (p : List Char) : pyStrip (rstripSp p) = pyStrip p := by
  unfold pyStrip rstripSp
  rw [rstripBy_idem]

theorem revdrop_eq_rstripSp (p w1 : List Char)
    (hw1 : ∀ c ∈ w1, isPySpace c = true) :
    ((w1.reverse ++ p.reverse).dropWhile isPySpace).reverse = rstripSp p := by
  rw [dropWhile_append_all (fun c hc => hw1 c (List.mem_reverse.mp hc))]
  rfl

end CleanTitleLemmas

/--
**C1** (corrected).  `clean_calibre_title` applies its suffix regex twice and
then strips the result.  Consequently:
1. a title on which the first regex pass finds no trailing
   `(digits)` suffix is returned with its leading and trailing whitespace
   stripped, but otherwise unchanged (digits elsewhere untouched);
2. a title `p ⧺ w1 ⧺ "(" ⧺ d ⧺ ")" ⧺ w2` (digits `d`, whitespace `w1`,
   `w2`) whose stem `p` has no trailing whitespace and no further
   whitespace-preceded suffix loses exactly that one suffix and is then
   whitespace-stripped;
3. a title carrying two stacked parenthesized digit suffixes loses *both*
   (the second regex pass removes the second one), not just the last.
-/
theorem clean_calibre_title_spec :
    (∀ t, stripOnePass false t = t → clean_calibre_title t = pyStrip t) ∧
    (∀ p w1 d w2, d ≠ [] → (∀ c ∈ d, isPyDigit c = true) →
      (∀ c ∈ w1, isPySpace c = true) → (∀ c ∈ w2, isPySpace c = true) →
      rstripSp p = p → stripOnePass true p = p →
      clean_calibre_title (p ++ (w1 ++ '(' :: (d ++ ')' :: w2))) = pyStrip p) ∧
    (∀ p w1 d1 w2 d2 w3, d1 ≠ [] → d2 ≠ [] →
      (∀ c ∈ d1, isPyDigit c = true) → (∀ c ∈ d2, isPyDigit c = true) →
      w1 ≠ [] → (∀ c ∈ w1, isPySpace c = true) →
      (∀ c ∈ w2, isPySpace c = true) → (∀ c ∈ w3, isPySpace c = true) →
      rstripSp p = p →
      clean_calibre_title
        (p ++ (w1 ++ '(' :: (d1 ++ ')' :: (w2 ++ '(' :: (d2 ++ ')' :: w3))))) =
        pyStrip p) := by
  refine ⟨?_, ?_, ?_⟩
  · intro t h
    unfold clean_calibre_title
    by_cases ht : t.isEmpty = true
    · have : t = [] := by simpa using ht
      subst this
      simp [pyStrip, rstripBy]
    · rw [if_neg ht, h]
      rcases stripOnePass_true_eq t with h1 | h1
      · rw [h1]
      · rw [h1, h]
  · intro p w1 d w2 hd hda hw1 hw2 hp hsp
    unfold clean_calibre_title
    rw [if_neg (by simp)]
    rw [stripOnePass_match false p w1 d w2 hd hda hw1 hw2 (by simp),
      revdrop_eq_rstripSp p w1 hw1, hp, hsp]
  · intro p w1 d1 w2 d2 w3 hd1 hd2 hda1 hda2 hw1ne hw1 hw2 hw3 hp
    have hshape :
        p ++ (w1 ++ '(' :: (d1 ++ ')' :: (w2 ++ '(' :: (d2 ++ ')' :: w3)))) =
          (p ++ (w1 ++ '(' :: (d1 ++ [')']))) ++ (w2 ++ '(' :: (d2 ++ ')' :: w3)) := by
      simp
    unfold clean_calibre_title
    rw [if_neg (by simp)]
    rw [hshape,
      stripOnePass_match false (p ++ (w1 ++ '(' :: (d1 ++ [')']))) w2 d2 w3 hd2 hda2
        hw2 hw3 (by simp)]
    have hrev1 : (p ++ (w1 ++ '(' :: (d1 ++ [')']))).reverse
        = ')' :: (d1.reverse ++ '(' :: (w1.reverse ++ p.reverse)) := by
      simp [List.reverse_append]
    have hpass1 :
        ((w2.reverse ++ (p ++ (w1 ++ '(' :: (d1 ++ [')']))).reverse).dropWhile
            isPySpace).reverse
          = p ++ (w1 ++ '(' :: (d1 ++ ')' :: ([] : List Char))) := by
      rw [dropWhile_append_all (fun c hc => hw2 c (List.mem_reverse.mp hc)), hrev1,
        dropWhile_cons_neg (by decide), ← hrev1, List.reverse_reverse]
    rw [hpass1]
    obtain ⟨h0, t0, hsplit⟩ : ∃ h0 t0, w1 = h0 :: t0 := by
      cases w1 with
      | nil => exact absurd rfl hw1ne
      | cons x xs => exact ⟨x, xs, rfl⟩
    have hb : headIs isPySpace (w1.reverse ++ p.reverse) = true := by
      have hlast : ∃ c t, w1.reverse = c :: t := by
        cases hw : w1.reverse with
        | nil =>
          exfalso
          exact hw1ne (by simpa using congrArg List.reverse hw)
        | cons x xs => exact ⟨x, xs, rfl⟩
      obtain ⟨c, t, hct⟩ := hlast
      have hcmem : c ∈ w1 := by rw [← List.mem_reverse, hct]; simp
      rw [hct]
      simpa [headIs] using hw1 c hcmem
    rw [stripOnePass_match true p w1 d1 [] hd1 hda1 hw1 (by simp) (fun _ => hb),
      revdrop_eq_rstripSp p w1 hw1, hp]

/--
**C1 counterexample.**  The claim predicts that two stacked suffixes lose
only the last one (`"A (1) (2)" ↦ "A (1)"`) and that a title with no
trailing suffix is returned identical, whitespace included
(`" A " ↦ " A "`).  The code removes both suffixes and strips whitespace.
-/
theorem clean_calibre_title_claim_refuted :
    clean_calibre_title (s2l "A (1) (2)") ≠ s2l "A (1)" ∧
    clean_calibre_title (s2l "A (1) (2)") = s2l "A" ∧
    clean_calibre_title (s2l " A ") ≠ s2l " A " ∧
    clean_calibre_title (s2l " A ") = s2l "A" := by
  refine ⟨by decide, by decide, by decide, by decide⟩

/-- **C1 witness.**  The amended statement evaluated at the spec's own
examples: `"Book 2020"` (no trailing suffix, digits preserved) and
`"Foundation (84)"` (one suffix removed). -/
theorem clean_calibre_title_spec_witness :
    clean_calibre_title (s2l "Book 2020") = pyStrip (s2l "Book 2020") ∧
    clean_calibre_title
        (s2l "Foundation" ++ ([' '] ++ '(' :: (['8', '4'] ++ ')' :: []))) =
      pyStrip (s2l "Foundation") :=
  ⟨clean_calibre_title_spec.1 (s2l "Book 2020") (by decide),
   clean_calibre_title_spec.2.1 (s2l "Foundation") [' '] ['8', '4'] []
     (by decide) (by decide) (by decide) (by decide) (by decide) (by decide)⟩

section SanitizeLemmas

theorem length_rstripBy_le (q : Char → Bool) (l : List Char) :
    (rstripBy q l).length ≤ l.length := by
  unfold rstripBy
  rw [List.length_reverse]
  calc (l.reverse.dropWhile q).length ≤ l.reverse.length := length_dropWhile_le l.reverse
    _ = l.length := List.length_reverse l

theorem sanitize_s2_no_invalid (s : List Char) :
    ∀ c ∈ (rstripBy stripCharsSet
        (s.map (fun c => if isInvalidChar c then '_' else c))).dropWhile stripCharsSet,
      isInvalidChar c = false := by
  intro c hc
  have hc1 : c ∈ s.map (fun c => if isInvalidChar c then '_' else c) :=
    mem_rstripBy (mem_dropWhile hc)
  obtain ⟨a, _, rfl⟩ := List.mem_map.mp hc1
  by_cases h : isInvalidChar a = true
  · rw [if_pos h]; decide
  · simp only [Bool.not_eq_true] at h
    rw [if_neg (by simp [h])]
    exact h

end SanitizeLemmas

/--
**C2** (corrected).  For every input, `sanitize_filename` returns a string
with none of the characters `< > : " / \ | ? *`, of length at most 100,
that does not *start* with `'.'` or `' '`; and whenever the result is not a
length-100 truncation it also does not *end* with `'.'` or `' '`.  (The
source strips only `'.'` and the space character — not all whitespace —
and truncates *after* stripping, so a truncated result may end in `'.'` or
`' '`.)  Totality holds by construction.
-/
theorem sanitize_filename_spec :
    ∀ s : List Char,
      (∀ c ∈ sanitize_filename s, isInvalidChar c = false) ∧
      (∀ c t, sanitize_filename s = c :: t → stripCharsSet c = false) ∧
      (sanitize_filename s).length ≤ 100 ∧
      ((sanitize_filename s).length < 100 →
        ∀ c, (sanitize_filename s).getLast? = some c → stripCharsSet c = false) := by
  intro s
  set s1 := s.map (fun c => if isInvalidChar c then '_' else c) with hs1
  set s2 := (rstripBy stripCharsSet s1).dropWhile stripCharsSet with hs2
  have hsan : sanitize_filename s = if s2.length > 100 then s2.take 100 else s2 := rfl
  have h1 : ∀ c ∈ s2, isInvalidChar c = false := sanitize_s2_no_invalid s
  have hhead : ∀ c t, s2 = c :: t → stripCharsSet c = false := by
    intro c t hct
    rw [hs2] at hct
    exact dropWhile_head_false hct
  have hlast : ∀ c, s2.getLast? = some c → stripCharsSet c = false := by
    intro c hc
    by_cases hnil : s2 = []
    · rw [hnil] at hc; simp at hc
    · have hg : s2.getLast? = (rstripBy stripCharsSet s1).getLast? := by
        rw [hs2]
        exact getLast?_dropWhile_of_ne_nil (hs2 ▸ hnil)
      rw [hg] at hc
      exact rstripBy_getLast?_false hc
  refine ⟨?_, ?_, ?_, ?_⟩
  · intro c hc
    rw [hsan] at hc
    by_cases ht : s2.length > 100
    · rw [if_pos ht] at hc
      exact h1 c (mem_take hc)
    · rw [if_neg ht] at hc
      exact h1 c hc
  · intro c t hct
    rw [hsan] at hct
    by_cases ht : s2.length > 100
    · rw [if_pos ht] at hct
      have hh : s2.head? = some c := by
        have h100 : (0 : Nat) < 100 := by omega
        rw [← head?_take (l := s2) h100, hct]
        rfl
      obtain ⟨t', ht'⟩ : ∃ t', s2 = c :: t' := by
        cases hs : s2 with
        | nil => rw [hs] at hh; exact absurd hh (by simp)
        | cons x xs =>
          rw [hs] at hh
          simp only [List.head?] at hh
          have hx : x = c := by simpa using hh
          exact ⟨xs, by rw [hx]⟩
      exact hhead c t' ht'
    · rw [if_neg ht] at hct
      exact hhead c t hct
  · rw [hsan]
    by_cases ht : s2.length > 100
    · rw [if_pos ht]
      simp [List.length_take]
    · rw [if_neg ht]
      omega
  · intro hlt c hc
    rw [hsan] at hlt hc
    by_cases ht : s2.length > 100
    · rw [if_pos ht] at hlt
      rw [List.length_take] at hlt
      omega
    · rw [if_neg ht] at hc
      exact hlast c hc

/--
**C2 counterexample.**  A leading tab survives `strip('. ')` (only dot and
space are stripped), so the output can start with whitespace; and the
truncation to 100 characters happens after stripping, so the output can end
with a space. -/
theorem sanitize_filename_claim_refuted :
    sanitize_filename ['\t', 'a'] = ['\t', 'a'] ∧ isPySpace '\t' = true ∧
    (sanitize_filename (List.replicate 99 'a' ++ s2l " .b")).getLast? = some ' ' := by
  refine ⟨by decide, by decide, by decide⟩

/-- **C2 witness.**  The amended statement instantiated at `"a<b"`. -/
theorem sanitize_filename_spec_witness :
    ((sanitize_filename (s2l "a<b")).length ≤ 100) ∧ stripCharsSet 'b' = false :=
  ⟨(sanitize_filename_spec (s2l "a<b")).2.2.1,
   (sanitize_filename_spec (s2l "a<b")).2.2.2 (by decide) 'b' (by decide)⟩

/--
**C3** (corrected).  `sanitize_filename` is idempotent on every input that
is not truncated — in particular on every input of length at most 100.
(Truncation to 100 characters happens after stripping and can expose a
trailing `'.'` or `' '` that a second application removes, so idempotence
fails in general; see the counterexample.)
-/
theorem sanitize_filename_idem_of_short :
    ∀ s : List Char, s.length ≤ 100 →
      sanitize_filename (sanitize_filename s) = sanitize_filename s := by
  intro s hlen
  set s1 := s.map (fun c => if isInvalidChar c then '_' else c) with hs1
  set s2 := (rstripBy stripCharsSet s1).dropWhile stripCharsSet with hs2
  have hs2len : s2.length ≤ 100 := by
    have h1 : s2.length ≤ (rstripBy stripCharsSet s1).length := by
      rw [hs2]
      exact length_dropWhile_le (rstripBy stripCharsSet s1)
    have h2 : (rstripBy stripCharsSet s1).length ≤ s1.length :=
      length_rstripBy_le stripCharsSet s1
    have h3 : s1.length = s.length := by rw [hs1]; exact List.length_map s _
    omega
  have hsan : sanitize_filename s = s2 := by
    show (if s2.length > 100 then s2.take 100 else s2) = s2
    rw [if_neg (by omega)]
  have hmapid : s2.map (fun c => if isInvalidChar c then '_' else c) = s2 := by
    have hni := sanitize_s2_no_invalid s
    rw [← hs1, ← hs2] at hni
    calc s2.map (fun c => if isInvalidChar c then '_' else c)
        = s2.map id := List.map_congr_left
          (fun a ha => by rw [if_neg (by simp [hni a ha])]; rfl)
      _ = s2 := List.map_id s2
  have hrstrip2 : rstripBy stripCharsSet s2 = s2 := by
    apply rstripBy_eq_self_of_getLast?
    intro c hc
    by_cases hnil : s2 = []
    · rw [hnil] at hc; simp at hc
    · have hg : s2.getLast? = (rstripBy stripCharsSet s1).getLast? := by
        rw [hs2]
        exact getLast?_dropWhile_of_ne_nil (hs2 ▸ hnil)
      rw [hg] at hc
      exact rstripBy_getLast?_false hc
  have hdrop2 : s2.dropWhile stripCharsSet = s2 := by
    rw [hs2, dropWhile_idem]
  rw [hsan]
  show (if ((rstripBy stripCharsSet
      (s2.map (fun c => if isInvalidChar c then '_' else c))).dropWhile
        stripCharsSet).length > 100 then _ else _) = s2
  rw [hmapid, hrstrip2, hdrop2, if_neg (by omega)]

/--
**C3 counterexample.**  A 102-character input whose sanitized form is
truncated to a trailing space: a second application strips that space, so
`sanitize(sanitize(x)) ≠ sanitize(x)`. -/
theorem sanitize_filename_idem_refuted :
    sanitize_filename (sanitize_filename (List.replicate 99 'a' ++ s2l " .b")) ≠
      sanitize_filename (List.replicate 99 'a' ++ s2l " .b") := by
  decide

/-- **C3 witness.**  Idempotence applied at the short input `"a.b"`. -/
theorem sanitize_filename_idem_witness :
    sanitize_filename (sanitize_filename (s2l "a.b")) = sanitize_filename (s2l "a.b") :=
  sanitize_filename_idem_of_short (s2l "a.b") (by decide)

section DigitLemmas

theorem natToCharsAux_eq (f1 : Nat) :
    ∀ (f2 n : Nat), n < f1 → n < f2 → natToCharsAux f1 n = natToCharsAux f2 n := by
  induction f1 with
  | zero => intro f2 n h1 _; omega
  | succ f ih =>
    intro f2 n h1 h2
    cases f2 with
    | zero => omega
    | succ g =>
      by_cases hn : n < 10
      · show natToCharsAux (f + 1) n = natToCharsAux (g + 1) n
        unfold natToCharsAux
        simp [hn]
      · have hd : n / 10 < n := Nat.div_lt_self (by omega) (by omega)
        show natToCharsAux (f + 1) n = natToCharsAux (g + 1) n
        unfold natToCharsAux
        rw [if_neg hn, if_neg hn, ih g (n / 10) (by omega) (by omega)]

theorem natToChars_small {n : Nat} (h : n < 10) :
    natToChars n = [Nat.digitChar n] := by
  unfold natToChars natToCharsAux
  simp [h]

theorem natToChars_step {n : Nat} (h : 10 ≤ n) :
    natToChars n = natToChars (n / 10) ++ [Nat.digitChar (n % 10)] := by
  have hd : n / 10 < n := Nat.div_lt_self (by omega) (by omega)
  have h1 : natToCharsAux (n + 1) n
      = natToCharsAux n (n / 10) ++ [Nat.digitChar (n % 10)] := by
    conv_lhs => rw [natToCharsAux]
    rw [if_neg (by omega)]
  unfold natToChars
  rw [h1, natToCharsAux_eq n (n / 10 + 1) (n / 10) (by omega) (by omega)]

theorem natToChars_ne_nil (n : Nat) : natToChars n ≠ [] := by
  by_cases h : n < 10
  · rw [natToChars_small h]; simp
  · rw [natToChars_step (by omega)]; simp

theorem natToChars_len_one {n : Nat} (h : n < 10) : (natToChars n).length = 1 := by
  rw [natToChars_small h]; rfl

theorem natToChars_len_le_two {n : Nat} (h : n < 100) :
    (natToChars n).length ≤ 2 := by
  by_cases h1 : n < 10
  · rw [natToChars_len_one h1]; omega
  · rw [natToChars_step (by omega)]
    have : n / 10 < 10 := by omega
    simp [natToChars_len_one this]

theorem natToChars_len_le_three {n : Nat} (h : n < 1000) :
    (natToChars n).length ≤ 3 := by
  by_cases h1 : n < 10
  · rw [natToChars_len_one h1]; omega
  · rw [natToChars_step (by omega)]
    have : n / 10 < 100 := by omega
    have h2 := natToChars_len_le_two this
    simp only [List.length_append, List.length_cons, List.length_nil]
    omega

theorem natToChars_len_ge_two {n : Nat} (h : 10 ≤ n) :
    2 ≤ (natToChars n).length := by
  rw [natToChars_step h]
  have h1 : (natToChars (n / 10)).length ≠ 0 := by
    simp [List.length_eq_zero, natToChars_ne_nil]
  simp only [List.length_append, List.length_cons, List.length_nil]
  omega

theorem natToChars_head_no_sign :
    ∀ n c t, natToChars n = c :: t → ¬(c = '-' ∨ c = '+') := by
  intro n
  induction n using Nat.strong_induction_on with
  | _ n ih =>
    intro c t h hsign
    by_cases hn : n < 10
    · rw [natToChars_small hn] at h
      have hc : c = Nat.digitChar n := by cases h; rfl
      subst hc
      interval_cases n <;> simp_all <;> rcases hsign with h' | h' <;> exact absurd h' (by decide)
    · rw [natToChars_step (by omega)] at h
      cases hx : natToChars (n / 10) with
      | nil => exact natToChars_ne_nil _ hx
      | cons y ys =>
        rw [hx, List.cons_append] at h
        have hy : y = c := by cases h; rfl
        subst hy
        exact ih (n / 10) (Nat.div_lt_self (by omega) (by omega)) y ys hx hsign

theorem zfill_of_le {w : Nat} {s : List Char} (h : w ≤ s.length) :
    zfill w s = s := by
  unfold zfill
  rw [if_pos h]

theorem zfill_length_no_sign {w : Nat} {s : List Char}
    (hhead : ∀ c t, s = c :: t → ¬(c = '-' ∨ c = '+')) :
    (zfill w s).length = max w s.length := by
  unfold zfill
  by_cases h : w ≤ s.length
  · rw [if_pos h]; omega
  · rw [if_neg h]
    cases s with
    | nil => simp
    | cons c t =>
      show (if c = '-' ∨ c = '+' then c :: (List.replicate (w - (c :: t).length) '0' ++ t)
        else List.replicate (w - (c :: t).length) '0' ++ c :: t).length = _
      rw [if_neg (hhead c t rfl)]
      simp only [List.length_append, List.length_replicate, List.length_cons]
      simp only [List.length_cons] at h
      omega

end DigitLemmas

/--
**C4** (corrected).  For a record with a nonempty series and a whole,
*nonzero* `series_index`, `get_file_name` yields
`sanitize("Volume NN - title′") ++ extension` with `NN` the index
zero-padded to two digits (natural width for values of three or more
digits, in particular all values ≥ 100).  A whole index of 0 is falsy in
`if series and series_index:`, so the series branch is skipped and the
name is just the cleaned title plus extension — the claim's "including 0"
fails.  The spec's own example is verified verbatim in the last conjunct.
-/
theorem get_file_name_whole_index :
    (∀ (md : Metadata) (orig s : List Char) (si : ℚ),
      md.series = some s → s ≠ [] → md.series_index = some si →
      si.den = 1 → si ≠ 0 →
      get_file_name md orig =
        sanitize_filename
          (s2l "Volume " ++ zfill 2 (intToStr si.num) ++ s2l " - " ++
            clean_calibre_title md.title) ++ pathSuffix orig) ∧
    (∀ n : ℕ, 100 ≤ n → zfill 2 (natToChars n) = natToChars n) ∧
    (∀ (md : Metadata) (orig : List Char),
      md.series_index = some 0 →
      get_file_name md orig =
        sanitize_filename (clean_calibre_title md.title) ++ pathSuffix orig) ∧
    get_file_name
        ⟨84, s2l "Foundation (84)", s2l "Isaac Asimov", some (s2l "Foundation"),
          some 7, []⟩ (s2l "b.epub") = s2l "Volume 07 - Foundation.epub" := by
  refine ⟨?_, ?_, ?_, by decide⟩
  · intro md orig s si hser hs hidx hden hsi
    unfold get_file_name
    rw [hser, hidx]
    simp only [if_pos (And.intro hs hsi), if_pos hden, List.append_assoc]
  · intro n hn
    apply zfill_of_le
    have := natToChars_len_ge_two (n := n) (by omega)
    omega
  · intro md orig hidx
    unfold get_file_name
    rw [hidx]
    cases md.series with
    | none => rfl
    | some s => simp

/--
**C4 counterexample.**  Index 0 with a series yields the title-only name
(no `Volume 00` prefix), and the assembled name passes through
`sanitize_filename`, so a title containing `:` is altered — both
contradicting the claimed shape. -/
theorem get_file_name_whole_index_refuted :
    get_file_name ⟨1, s2l "T", s2l "A", some (s2l "S"), some 0, []⟩ (s2l "b.epub")
        = s2l "T.epub" ∧
    s2l "T.epub" ≠ s2l "Volume 00 - T.epub" ∧
    get_file_name ⟨1, s2l "a:b", s2l "A", some (s2l "S"), some 1, []⟩ (s2l "b.epub")
        = s2l "Volume 01 - a_b.epub" ∧
    s2l "Volume 01 - a_b.epub" ≠ s2l "Volume 01 - a:b.epub" := by
  refine ⟨by decide, by decide, by decide, by decide⟩

/-- **C4 witness.**  The whole-index branch applied at the spec's example
record (series "Foundation", index 7, extension `.epub`). -/
theorem get_file_name_whole_index_witness :
    get_file_name
        ⟨84, s2l "Foundation (84)", s2l "Isaac Asimov", some (s2l "Foundation"),
          some 7, []⟩ (s2l "b.epub") =
      sanitize_filename
        (s2l "Volume " ++ zfill 2 (intToStr (7 : ℚ).num) ++ s2l " - " ++
          clean_calibre_title (s2l "Foundation (84)")) ++ pathSuffix (s2l "b.epub") :=
  get_file_name_whole_index.1
    ⟨84, s2l "Foundation (84)", s2l "Isaac Asimov", some (s2l "Foundation"),
      some 7, []⟩
    (s2l "b.epub") (s2l "Foundation") 7 rfl (by decide) rfl (by decide) (by decide)

section FormatLemmas

theorem rneFrac_mem (a : ℤ) (b : ℕ) :
    rneFrac a b = Int.ediv a (b : ℤ) ∨ rneFrac a b = Int.ediv a (b : ℤ) + 1 := by
  unfold rneFrac
  by_cases h1 : 2 * (a - (b : ℤ) * Int.ediv a (b : ℤ)) < (b : ℤ)
  · left; simp [h1]
  · by_cases h2 : (b : ℤ) < 2 * (a - (b : ℤ) * Int.ediv a (b : ℤ))
    · right; simp [h1, h2]
    · by_cases h3 : Int.ediv a (b : ℤ) % 2 = 0
      · left; simp [h1, h2, h3]
      · right; simp [h1, h2, h3]

theorem rneFrac_bounds {a : ℤ} {b : ℕ} (hb : 0 < b) (ha : 0 < a)
    (hub : a < 1000 * (b : ℤ)) : 0 ≤ rneFrac a b ∧ rneFrac a b ≤ 1000 := by
  have hb' : (0 : ℤ) < (b : ℤ) := by exact_mod_cast hb
  have hnn : 0 ≤ Int.ediv a (b : ℤ) := Int.ediv_nonneg (by omega) (by omega)
  have hlt : Int.ediv a (b : ℤ) < 1000 :=
    (Int.ediv_lt_iff_lt_mul hb').mpr (by omega)
  rcases rneFrac_mem a b with h | h <;> rw [h] <;> omega

end FormatLemmas

/--
**C5** (corrected).  For a record with a nonempty series and a fractional
`series_index`, the volume token is Python's `f"{index:05.1f}"` — one
fractional digit, zero-padded to a **total** width of 5 characters
*including* the decimal point — with the point then replaced by `_`.  For
every index strictly between 0 and 100 the token therefore has exactly
**5** characters (the claim's "exactly 6" is wrong: its own example token
`003_5` has 5).  The assembled name passes through `sanitize_filename`
before the extension is appended.
-/
theorem get_file_name_fractional_index :
    (∀ (md : Metadata) (orig s : List Char) (si : ℚ),
      md.series = some s → s ≠ [] → md.series_index = some si → si.den ≠ 1 →
      get_file_name md orig =
        sanitize_filename
          (s2l "Volume " ++
            (format05_1f si).map (fun c => if c = '.' then '_' else c) ++
            s2l " - " ++ clean_calibre_title md.title) ++ pathSuffix orig) ∧
    (∀ si : ℚ, 0 < si → si < 100 →
      ((format05_1f si).map (fun c => if c = '.' then '_' else c)).length = 5) ∧
    (format05_1f q7half).map (fun c => if c = '.' then '_' else c) = s2l "003_5" := by
  refine ⟨?_, ?_, by decide⟩
  · intro md orig s si hser hs hidx hden
    have hsi : si ≠ 0 := by
      intro h
      rw [h] at hden
      exact hden rfl
    unfold get_file_name
    rw [hser, hidx]
    simp only [if_pos (And.intro hs hsi), if_neg hden, List.append_assoc]
  · intro si h0 h100
    rw [List.length_map]
    have hbpos : 0 < si.den := si.pos
    have hnum : 0 < si.num := Rat.num_pos.mpr h0
    have hub : 10 * si.num < 1000 * (si.den : ℤ) := by
      have := Rat.lt_def.mp h100
      simp only [Rat.num_ofNat, Rat.den_ofNat, Int.mul_one] at this
      omega
    obtain ⟨hn0, hn1000⟩ := rneFrac_bounds hbpos (by omega) hub
    set n := rneFrac (10 * si.num) si.den with hn
    have hm : n.natAbs ≤ 1000 := by omega
    have hdiv : n.natAbs / 10 < 1000 := by omega
    have hmod : n.natAbs % 10 < 10 := Nat.mod_lt _ (by omega)
    have hlen1 : (natToChars (n.natAbs / 10)).length ≤ 3 := natToChars_len_le_three hdiv
    have hlen2 : (natToChars (n.natAbs % 10)).length = 1 := natToChars_len_one hmod
    have hneg : ¬(si < 0) := by exact not_lt.mpr (le_of_lt h0)
    have hbody : format05_1f si
        = zfill 5 (natToChars (n.natAbs / 10) ++ '.' :: natToChars (n.natAbs % 10)) := by
      unfold format05_1f
      rw [if_neg hneg, ← hn]
    rw [hbody]
    obtain ⟨y, ys, hy⟩ : ∃ y ys, natToChars (n.natAbs / 10) = y :: ys := by
      cases hx : natToChars (n.natAbs / 10) with
      | nil => exact absurd hx (natToChars_ne_nil _)
      | cons a as => exact ⟨a, as, rfl⟩
    have hhead : ∀ c t,
        natToChars (n.natAbs / 10) ++ '.' :: natToChars (n.natAbs % 10) = c :: t →
        ¬(c = '-' ∨ c = '+') := by
      intro c t hct
      rw [hy, List.cons_append] at hct
      have hc : y = c := by cases hct; rfl
      subst hc
      exact natToChars_head_no_sign (n.natAbs / 10) y ys hy
    rw [zfill_length_no_sign hhead]
    have hl1 : 1 ≤ (natToChars (n.natAbs / 10)).length := by
      rw [hy]; simp
    simp only [List.length_append, List.length_cons]
    omega

/--
**C5 counterexample.**  The token for the fractional index 3.5 is `003_5`,
which has 5 characters, not the 6 the claim asserts; and the assembled name
passes through `sanitize_filename`, so a title containing `:` is altered. -/
theorem get_file_name_fractional_index_refuted :
    ((format05_1f q7half).map (fun c => if c = '.' then '_' else c)).length ≠ 6 ∧
    (format05_1f q7half).map (fun c => if c = '.' then '_' else c) = s2l "003_5" ∧
    get_file_name ⟨1, s2l "a:b", s2l "A", some (s2l "S"), some q7half, []⟩
        (s2l "b.epub") = s2l "Volume 003_5 - a_b.epub" := by
  refine ⟨by decide, by decide, by decide⟩

/-- **C5 witness.**  The fractional branch applied at index 3.5 with title
`"T"`, plus the token-length conjunct at 3.5. -/
theorem get_file_name_fractional_index_witness :
    get_file_name ⟨1, s2l "T", s2l "A", some (s2l "S"), some q7half, []⟩
        (s2l "b.epub") =
      sanitize_filename
        (s2l "Volume " ++
          (format05_1f q7half).map (fun c => if c = '.' then '_' else c) ++
          s2l " - " ++ clean_calibre_title (s2l "T")) ++ pathSuffix (s2l "b.epub") ∧
    ((format05_1f q7half).map (fun c => if c = '.' then '_' else c)).length = 5 :=
  ⟨get_file_name_fractional_index.1
      ⟨1, s2l "T", s2l "A", some (s2l "S"), some q7half, []⟩
      (s2l "b.epub") (s2l "S") q7half rfl (by decide) rfl (by decide),
   get_file_name_fractional_index.2.1 q7half (by decide) (by decide)⟩

section EngineLemmas

theorem processBooks_cons_missing {M : Migrator} {filt : Option (List Char)}
    {k : List Char} {md : Metadata} {rest : List (List Char × Metadata)}
    {st : RunState} (h : isDirB st.fs (pathJoin M.calibre_path k) = false) :
    processBooks M filt ((k, md) :: rest) st =
      processBooks M filt rest
        { st with log := st.log ++ [Event.warnBookPathMissing (pathJoin M.calibre_path k)] } := by
  conv_lhs => rw [processBooks]
  simp [h]

theorem processBooks_cons_reject {M : Migrator} {filt : Option (List Char)}
    {k : List Char} {md : Metadata} {rest : List (List Char × Metadata)}
    {st : RunState} (hdir : isDirB st.fs (pathJoin M.calibre_path k) = true)
    (hrej : filterRejects filt md.author = true) :
    processBooks M filt ((k, md) :: rest) st = processBooks M filt rest st := by
  conv_lhs => rw [processBooks]
  simp [hdir, hrej]

theorem processBooks_cons_accept {M : Migrator} {filt : Option (List Char)}
    {k : List Char} {md : Metadata} {rest : List (List Char × Metadata)}
    {st : RunState} (hdir : isDirB st.fs (pathJoin M.calibre_path k) = true)
    (hrej : filterRejects filt md.author = false) :
    processBooks M filt ((k, md) :: rest) st =
      processBooks M filt rest
        (migrate_book M (pathJoin M.calibre_path k)
          { st with stats := { st.stats with total_books := st.stats.total_books + 1 } }).1 := by
  conv_lhs => rw [processBooks]
  simp [hdir, hrej]

theorem migrate_book_stats (M : Migrator) (p : List Char) (st : RunState) :
    ((migrate_book M p st).1).stats.total_books = st.stats.total_books ∧
    ((migrate_book M p st).1).stats.migrated_books +
        ((migrate_book M p st).1).stats.skipped_books +
        ((migrate_book M p st).1).stats.errors =
      st.stats.migrated_books + st.stats.skipped_books + st.stats.errors + 1 := by
  unfold migrate_book
  cases hmd : get_book_metadata M p with
  | none => simp; omega
  | some md =>
    by_cases hemp : (find_ebook_files st.fs p).isEmpty = true
    · simp [hemp]; omega
    · by_cases hdry : M.dry_run = false
      · by_cases hfail :
          pathJoin M.komga_path (get_series_folder_name md) ∈ st.fs.failing
        · simp [hemp, hdry, hfail]; omega
        · rcases hcl : copyLoop md (pathJoin M.komga_path (get_series_folder_name md))
              (find_ebook_files st.fs p)
              (mkdirP st.fs (pathJoin M.komga_path (get_series_folder_name md)))
              (st.log ++ [Event.infoMigrating (get_series_folder_name md)]) with
            ⟨fs2, log2, ok⟩
          cases ok with
          | true => simp [hemp, hdry, hfail, hcl]; omega
          | false => simp [hemp, hdry, hfail, hcl]; omega
      · have hdry' : M.dry_run = true := by
          revert hdry; cases M.dry_run <;> simp
        simp [hemp, hdry']; omega

theorem migrate_book_dry_fs (M : Migrator) (p : List Char) (st : RunState)
    (h : M.dry_run = true) : ((migrate_book M p st).1).fs = st.fs := by
  unfold migrate_book
  cases hmd : get_book_metadata M p with
  | none => simp
  | some md =>
    by_cases hemp : (find_ebook_files st.fs p).isEmpty = true
    · simp [hemp]
    · simp [hemp, h]

theorem validate_paths_stats (M : Migrator) (st : RunState) :
    (validate_paths M st).1.stats = st.stats := by
  unfold validate_paths
  by_cases h1 : pathExistsB st.fs M.calibre_path = true
  · by_cases h2 : isDirB st.fs M.calibre_path = true
    · by_cases h3 : pathExistsB st.fs (pathJoin M.calibre_path (s2l "metadata.db")) = true
      · by_cases h4 : M.dry_run = true
        · simp [h1, h2, h3, h4]
        · simp [h1, h2, h3, h4]
      · simp [h1, h2, h3]
    · simp [h1, h2]
  · simp [h1]

theorem validate_paths_dry_fs (M : Migrator) (st : RunState) (h : M.dry_run = true) :
    (validate_paths M st).1.fs = st.fs := by
  unfold validate_paths
  by_cases h1 : pathExistsB st.fs M.calibre_path = true
  · by_cases h2 : isDirB st.fs M.calibre_path = true
    · by_cases h3 : pathExistsB st.fs (pathJoin M.calibre_path (s2l "metadata.db")) = true
      · simp [h1, h2, h3, h]
      · simp [h1, h2, h3]
    · simp [h1, h2]
  · simp [h1]

theorem processBooks_partition (M : Migrator) (filt : Option (List Char)) :
    ∀ (cache : List (List Char × Metadata)) (st : RunState),
      st.stats.total_books =
        st.stats.migrated_books + st.stats.skipped_books + st.stats.errors →
      (processBooks M filt cache st).stats.total_books =
        (processBooks M filt cache st).stats.migrated_books +
          (processBooks M filt cache st).stats.skipped_books +
          (processBooks M filt cache st).stats.errors := by
  intro cache
  induction cache with
  | nil => intro st hP; exact hP
  | cons e rest ih =>
    obtain ⟨k, md⟩ := e
    intro st hP
    by_cases hdir : isDirB st.fs (pathJoin M.calibre_path k) = true
    · by_cases hrej : filterRejects filt md.author = true
      · rw [processBooks_cons_reject hdir hrej]
        exact ih st hP
      · rw [processBooks_cons_accept hdir (by simpa using hrej)]
        apply ih
        obtain ⟨h1, h2⟩ := migrate_book_stats M (pathJoin M.calibre_path k)
          { st with stats := { st.stats with total_books := st.stats.total_books + 1 } }
        rw [h1, h2]
        simp
        omega
    · rw [processBooks_cons_missing (by simpa using hdir)]
      exact ih _ hP

theorem processBooks_dry_fs (M : Migrator) (filt : Option (List Char))
    (h : M.dry_run = true) :
    ∀ (cache : List (List Char × Metadata)) (st : RunState),
      (processBooks M filt cache st).fs = st.fs := by
  intro cache
  induction cache with
  | nil => intro st; rfl
  | cons e rest ih =>
    obtain ⟨k, md⟩ := e
    intro st
    by_cases hdir : isDirB st.fs (pathJoin M.calibre_path k) = true
    · by_cases hrej : filterRejects filt md.author = true
      · rw [processBooks_cons_reject hdir hrej]
        exact ih st
      · rw [processBooks_cons_accept hdir (by simpa using hrej)]
        rw [ih _]
        exact migrate_book_dry_fs M (pathJoin M.calibre_path k) _ h
    · rw [processBooks_cons_missing (by simpa using hdir)]
      exact ih _

end EngineLemmas

/--
**C10** (confirmed).  `migrate_book` never touches `total_books` and
increments exactly one of `migrated_books`/`skipped_books`/`errors` by
exactly one; `migrate_library` increments `total_books` once per book it
hands to `migrate_book` and counts nothing for filtered-out or
missing-directory books.  Hence at the end of every run the counters
partition the processed books: `total = migrated + skipped + errors`.
-/
theorem migrate_library_counters_partition :
    (∀ (M : Migrator) (p : List Char) (st : RunState),
      ((migrate_book M p st).1).stats.total_books = st.stats.total_books ∧
      ((migrate_book M p st).1).stats.migrated_books +
          ((migrate_book M p st).1).stats.skipped_books +
          ((migrate_book M p st).1).stats.errors =
        st.stats.migrated_books + st.stats.skipped_books + st.stats.errors + 1) ∧
    (∀ (M : Migrator) (filt : Option (List Char)) (fs : FS),
      (migrate_library M filt fs).stats.total_books =
        (migrate_library M filt fs).stats.migrated_books +
          (migrate_library M filt fs).stats.skipped_books +
          (migrate_library M filt fs).stats.errors) := by
  refine ⟨migrate_book_stats, ?_⟩
  intro M filt fs
  unfold migrate_library
  rcases hv : validate_paths M ⟨⟨0, 0, 0, 0⟩, fs, [Event.infoStart]⟩ with ⟨st', b⟩
  have hst' : st'.stats = ⟨0, 0, 0, 0⟩ := by
    have h := validate_paths_stats M ⟨⟨0, 0, 0, 0⟩, fs, [Event.infoStart]⟩
    rw [hv] at h
    exact h
  cases b with
  | false =>
    simp [hv, hst']
  | true =>
    simp only [hv]
    have h := processBooks_partition M filt M.metadata_cache st' (by simp [hst'])
    simpa using h

/--
**C6** (corrected).  A book whose resolved source directory is missing (or
not a directory) is passed over by `migrate_library` with only a warning —
`continue` runs *before* `total_books += 1` and before `migrate_book`, so
the book is **not** counted: neither `total_books` nor `skipped_books` (nor
any other counter) is incremented, and no exception is raised (the run is
the run without that entry, plus one warning line).  The concrete conjuncts
evaluate a one-book library with a missing directory.
-/
theorem migrate_library_missing_dir_spec :
    (∀ (M : Migrator) (filt : Option (List Char)) (k : List Char) (md : Metadata)
        (rest : List (List Char × Metadata)) (st : RunState),
      isDirB st.fs (pathJoin M.calibre_path k) = false →
      processBooks M filt ((k, md) :: rest) st =
        processBooks M filt rest
          { st with
              log := st.log ++ [Event.warnBookPathMissing (pathJoin M.calibre_path k)] }) ∧
    (migrate_library c6M none c6fs).stats = ⟨0, 0, 0, 0⟩ ∧
    Event.warnBookPathMissing (pathJoin (s2l "cal") (s2l "b")) ∈
      (migrate_library c6M none c6fs).log := by
  refine ⟨fun M filt k md rest st h => processBooks_cons_missing h, by decide, by decide⟩

/--
**C6 counterexample.**  The claim says a book with a missing source
directory is counted (`skipped_books` incremented, present in the totals).
In the one-book world `c6M`/`c6fs` the directory is missing, a warning is
logged, but `skipped_books` and `total_books` both stay 0.
-/
theorem migrate_library_missing_dir_refuted :
    (migrate_library c6M none c6fs).stats.skipped_books = 0 ∧
    (migrate_library c6M none c6fs).stats.total_books = 0 ∧
    Event.warnBookPathMissing (pathJoin (s2l "cal") (s2l "b")) ∈
      (migrate_library c6M none c6fs).log := by
  refine ⟨by decide, by decide, by decide⟩

/-- **C6 witness.**  The amended book-loop equation applied to the concrete
one-book world with a missing source directory. -/
theorem migrate_library_missing_dir_witness :
    processBooks c6M none ((s2l "b", c6md) :: []) ⟨⟨0, 0, 0, 0⟩, c6fs, []⟩ =
      processBooks c6M none []
        { (⟨⟨0, 0, 0, 0⟩, c6fs, []⟩ : RunState) with
            log := ([] : List Event) ++
              [Event.warnBookPathMissing (pathJoin c6M.calibre_path (s2l "b"))] } :=
  migrate_library_missing_dir_spec.1 c6M none (s2l "b") c6md []
    ⟨⟨0, 0, 0, 0⟩, c6fs, []⟩ (by decide)

theorem processBooks_all_match (M : Migrator) (filt : Option (List Char)) :
    ∀ (cache : List (List Char × Metadata)) (st : RunState),
      (∀ e ∈ cache, filterRejects filt e.2.author = false) →
      processBooks M filt cache st = processBooks M none cache st := by
  intro cache
  induction cache with
  | nil => intro st _; rfl
  | cons e rest ih =>
    obtain ⟨k, md⟩ := e
    intro st hall
    have hhd : filterRejects filt md.author = false := hall (k, md) (by simp)
    have hrest : ∀ e ∈ rest, filterRejects filt e.2.author = false :=
      fun e he => hall e (by simp [he])
    by_cases hdir : isDirB st.fs (pathJoin M.calibre_path k) = true
    · rw [processBooks_cons_accept hdir hhd,
        processBooks_cons_accept hdir (by rfl), ih _ hrest]
    · rw [processBooks_cons_missing (by simpa using hdir),
        processBooks_cons_missing (by simpa using hdir), ih _ hrest]

/--
**C8** (confirmed).  With an author filter set: a book whose author does
not contain the filter (case-insensitively) and whose directory exists is
passed over before `total_books += 1`, leaving the entire run state
(counters, filesystem, log) exactly as if the book were absent; when every
book matches, the run is identical to an unfiltered run; and in the
concrete two-author world `c8M`/`c8fs` with filter `"li"` (matching only
"Alice"), exactly one book lands in `total`/`migrated` while the other
appears in no counter.
-/
theorem migrate_library_author_filter_spec :
    (∀ (M : Migrator) (filt : Option (List Char)) (k : List Char) (md : Metadata)
        (rest : List (List Char × Metadata)) (st : RunState),
      isDirB st.fs (pathJoin M.calibre_path k) = true →
      filterRejects filt md.author = true →
      processBooks M filt ((k, md) :: rest) st = processBooks M filt rest st) ∧
    (∀ (M : Migrator) (filt : Option (List Char))
        (cache : List (List Char × Metadata)) (st : RunState),
      (∀ e ∈ cache, filterRejects filt e.2.author = false) →
      processBooks M filt cache st = processBooks M none cache st) ∧
    (migrate_library c8M (some (s2l "li")) c8fs).stats = ⟨1, 1, 0, 0⟩ := by
  refine ⟨fun M filt k md rest st hdir hrej => processBooks_cons_reject hdir hrej,
    processBooks_all_match, by decide⟩

/-- **C8 witness.**  The rejection conjunct applied in the two-author world
with a filter (`"zz"`) matching neither author: the book contributes
nothing to the run state. -/
theorem migrate_library_author_filter_witness :
    processBooks c8M (some (s2l "zz")) ((s2l "b1", c8md1) :: [])
        ⟨⟨0, 0, 0, 0⟩, c8fs, []⟩ =
      processBooks c8M (some (s2l "zz")) [] ⟨⟨0, 0, 0, 0⟩, c8fs, []⟩ :=
  migrate_library_author_filter_spec.1 c8M (some (s2l "zz")) (s2l "b1") c8md1 []
    ⟨⟨0, 0, 0, 0⟩, c8fs, []⟩ (by decide) (by decide)

/--
**C9** (confirmed).  `print_summary` always renders the four counters, and
the success-rate line — value `migrated/total × 100` (logged with one
decimal place) — appears exactly when `total_books > 0`.  The division is
guarded by that check, so the summary never raises `ZeroDivisionError`:
the result is `Except.ok` for every stats value.
-/
theorem print_summary_spec :
    ∀ st : Stats,
      (print_summary st).isOk = true ∧
      Event.lineTotal st.total_books ∈ okEvents (print_summary st) ∧
      Event.lineMigrated st.migrated_books ∈ okEvents (print_summary st) ∧
      Event.lineSkipped st.skipped_books ∈ okEvents (print_summary st) ∧
      Event.lineErrors st.errors ∈ okEvents (print_summary st) ∧
      (0 < st.total_books →
        Event.lineSuccessRate ((st.migrated_books : ℚ) / (st.total_books : ℚ) * 100) ∈
          okEvents (print_summary st)) ∧
      (st.total_books = 0 →
        ∀ q : ℚ, Event.lineSuccessRate q ∉ okEvents (print_summary st)) := by
  intro st
  by_cases h : 0 < st.total_books
  · have hne : ((st.total_books : ℚ)) ≠ 0 := Nat.cast_ne_zero.mpr (by omega)
    have hps : print_summary st =
        Except.ok ([Event.summaryHeader, Event.lineTotal st.total_books,
          Event.lineMigrated st.migrated_books, Event.lineSkipped st.skipped_books,
          Event.lineErrors st.errors] ++
          [Event.lineSuccessRate
            ((st.migrated_books : ℚ) / (st.total_books : ℚ) * 100)]) := by
      unfold print_summary pyDiv
      rw [if_pos h, if_neg hne]
    refine ⟨by rw [hps]; rfl, ?_, ?_, ?_, ?_, ?_, ?_⟩
    · simp [hps, okEvents]
    · simp [hps, okEvents]
    · simp [hps, okEvents]
    · simp [hps, okEvents]
    · intro _
      simp [hps, okEvents]
    · intro h0
      omega
  · have h0 : st.total_books = 0 := by omega
    have hps : print_summary st =
        Except.ok [Event.summaryHeader, Event.lineTotal st.total_books,
          Event.lineMigrated st.migrated_books, Event.lineSkipped st.skipped_books,
          Event.lineErrors st.errors] := by
      unfold print_summary
      rw [if_neg h]
    refine ⟨by rw [hps]; rfl, ?_, ?_, ?_, ?_, ?_, ?_⟩
    · simp [hps, okEvents]
    · simp [hps, okEvents]
    · simp [hps, okEvents]
    · simp [hps, okEvents]
    · intro hlt
      omega
    · intro _ q
      simp [hps, okEvents]

/-- **C9 witness.**  The summary of stats `⟨2, 1, 1, 0⟩` succeeds and
carries the rate line; the zero-total summary succeeds with no rate line. -/
theorem print_summary_spec_witness :
    (print_summary ⟨2, 1, 1, 0⟩).isOk = true ∧
    Event.lineSuccessRate (((1 : ℕ) : ℚ) / ((2 : ℕ) : ℚ) * 100) ∈
      okEvents (print_summary ⟨2, 1, 1, 0⟩) ∧
    (∀ q : ℚ, Event.lineSuccessRate q ∉ okEvents (print_summary ⟨0, 0, 0, 0⟩)) :=
  ⟨(print_summary_spec ⟨2, 1, 1, 0⟩).1,
   (print_summary_spec ⟨2, 1, 1, 0⟩).2.2.2.2.2.1 (by decide),
   (print_summary_spec ⟨0, 0, 0, 0⟩).2.2.2.2.2.2 rfl⟩

section DryRunLemmas

theorem pathJoin_ne_left (a b : List Char) : pathJoin a b ≠ a := by
  intro h
  have := congrArg List.length h
  simp [pathJoin] at this

theorem migrate_library_dry_fs (M : Migrator) (filt : Option (List Char)) (fs : FS)
    (h : M.dry_run = true) : (migrate_library M filt fs).fs = fs := by
  unfold migrate_library
  rcases hv : validate_paths M ⟨⟨0, 0, 0, 0⟩, fs, [Event.infoStart]⟩ with ⟨st', b⟩
  have hfs' : st'.fs = fs := by
    have hh := validate_paths_dry_fs M ⟨⟨0, 0, 0, 0⟩, fs, [Event.infoStart]⟩ h
    rw [hv] at hh
    exact hh
  cases b with
  | false => simp [hv, hfs']
  | true =>
    simp only [hv]
    show (processBooks M filt M.metadata_cache st').fs = fs
    rw [processBooks_dry_fs M filt h M.metadata_cache st', hfs']

theorem migrate_book_dry_log (M : Migrator) (p : List Char) (st : RunState)
    (md : Metadata) (h : M.dry_run = true) (hmd : get_book_metadata M p = some md)
    (hne : find_ebook_files st.fs p ≠ []) :
    (migrate_book M p st).1.fs = st.fs ∧
    (migrate_book M p st).1.log =
      st.log ++ [Event.infoMigrating (get_series_folder_name md)] ++
        (plannedDests M st.fs p md).map
          (fun pr => Event.wouldCreate (pathJoin pr.1 pr.2)) := by
  have hemp : (find_ebook_files st.fs p).isEmpty = false := by
    cases hx : find_ebook_files st.fs p with
    | nil => exact absurd hx hne
    | cons a as => rfl
  unfold migrate_book
  rw [hmd]
  simp only [hemp, Bool.false_eq_true, if_false, h]
  refine ⟨rfl, ?_⟩
  simp [plannedDests, List.map_map, List.append_assoc, Function.comp]

theorem contains_append {A : Type} [BEq A] (l1 l2 : List A) (a : A) :
    (l1 ++ l2).contains a = (l1.contains a || l2.contains a) := by
  induction l1 with
  | nil => simp
  | cons b bs ih =>
    simp only [List.cons_append, List.contains_cons, ih, Bool.or_assoc]

theorem copyLoop_all_fresh (md : Metadata) (sp : List Char) :
    ∀ (files : List (List Char)) (fs : FS) (log : List Event),
      (∀ f ∈ files, destExists fs sp (get_file_name md f) = false) →
      (∀ f ∈ files, pathJoin sp (get_file_name md f) ∉ fs.failing) →
      (files.map (get_file_name md)).Nodup →
      copyLoop md sp files fs log =
        ({ fs with files := fs.files ++ files.map (fun f => (sp, get_file_name md f)) },
         log ++ files.map (fun f => Event.debugCopied (pathJoin sp (get_file_name md f))),
         true) := by
  intro files
  induction files with
  | nil => intro fs log _ _ _; simp [copyLoop]
  | cons f rest ih =>
    intro fs log hfresh hfail hnd
    have h1 : destExists fs sp (get_file_name md f) = false := hfresh f (by simp)
    have h2 : pathJoin sp (get_file_name md f) ∉ fs.failing := hfail f (by simp)
    have hgne : ∀ g ∈ rest, get_file_name md g ≠ get_file_name md f := by
      intro g hg contra
      rw [List.map_cons, List.nodup_cons] at hnd
      exact hnd.1 (contra ▸ List.mem_map_of_mem (get_file_name md) hg)
    conv_lhs => rw [copyLoop]
    rw [h1]
    simp only [Bool.false_eq_true, if_false, if_neg h2]
    rw [ih { fs with files := fs.files ++ [(sp, get_file_name md f)] }
      (log ++ [Event.debugCopied (pathJoin sp (get_file_name md f))]) ?hfresh ?hfail ?hnd]
    case hfresh =>
      intro g hg
      have hbase := hfresh g (by simp [hg])
      unfold destExists at hbase ⊢
      simp only [contains_append]
      simp only [Bool.or_eq_false_iff] at hbase ⊢
      refine ⟨⟨hbase.1, ?_⟩, hbase.2⟩
      simp [hgne g hg]
    case hfail =>
      intro g hg
      exact hfail g (by simp [hg])
    case hnd =>
      rw [List.map_cons, List.nodup_cons] at hnd
      exact hnd.2
    simp [List.append_assoc]

theorem migrate_book_real_creates (M : Migrator) (p : List Char) (st : RunState)
    (md : Metadata) (h : M.dry_run = false) (hmd : get_book_metadata M p = some md)
    (hne : find_ebook_files st.fs p ≠ [])
    (hfail0 : pathJoin M.komga_path (get_series_folder_name md) ∉ st.fs.failing)
    (hfresh : ∀ f ∈ find_ebook_files st.fs p,
      destExists st.fs (pathJoin M.komga_path (get_series_folder_name md))
          (get_file_name md f) = false ∧
        pathJoin (pathJoin M.komga_path (get_series_folder_name md))
          (get_file_name md f) ∉ st.fs.failing)
    (hnd : ((find_ebook_files st.fs p).map (get_file_name md)).Nodup) :
    (migrate_book M p st).1.fs.files = st.fs.files ++ plannedDests M st.fs p md := by
  have hemp : (find_ebook_files st.fs p).isEmpty = false := by
    cases hx : find_ebook_files st.fs p with
    | nil => exact absurd hx hne
    | cons a as => rfl
  have hfs1 : (mkdirP st.fs (pathJoin M.komga_path (get_series_folder_name md))).files
      = st.fs.files := by
    unfold mkdirP
    by_cases hx : pathJoin M.komga_path (get_series_folder_name md) ∈ st.fs.dirs
    · rw [if_pos hx]
    · rw [if_neg hx]
  have hfail1 : (mkdirP st.fs (pathJoin M.komga_path (get_series_folder_name md))).failing
      = st.fs.failing := by
    unfold mkdirP
    by_cases hx : pathJoin M.komga_path (get_series_folder_name md) ∈ st.fs.dirs
    · rw [if_pos hx]
    · rw [if_neg hx]
  have hfresh1 : ∀ f ∈ find_ebook_files st.fs p,
      destExists (mkdirP st.fs (pathJoin M.komga_path (get_series_folder_name md)))
        (pathJoin M.komga_path (get_series_folder_name md)) (get_file_name md f)
        = false := by
    intro f hf
    have hbase := (hfresh f hf).1
    unfold destExists at hbase ⊢
    unfold mkdirP
    by_cases hx : pathJoin M.komga_path (get_series_folder_name md) ∈ st.fs.dirs
    · rw [if_pos hx]
      exact hbase
    · rw [if_neg hx]
      simp only [contains_append]
      simp only [Bool.or_eq_false_iff] at hbase ⊢
      refine ⟨hbase.1, hbase.2, ?_⟩
      simp [pathJoin_ne_left]
  have hfail2 : ∀ f ∈ find_ebook_files st.fs p,
      pathJoin (pathJoin M.komga_path (get_series_folder_name md)) (get_file_name md f)
        ∉ (mkdirP st.fs (pathJoin M.komga_path (get_series_folder_name md))).failing := by
    intro f hf
    rw [hfail1]
    exact (hfresh f hf).2
  unfold migrate_book
  rw [hmd]
  simp only [hemp, Bool.false_eq_true, if_false, h, if_true, if_neg hfail0]
  rw [copyLoop_all_fresh md (pathJoin M.komga_path (get_series_folder_name md))
    (find_ebook_files st.fs p) _ _ hfresh1 hfail2 hnd]
  simp [hfs1, plannedDests]

end DryRunLemmas

/--
**C7** (corrected).  In dry-run mode `migrate_library` performs no
filesystem mutation at all — the destination root is not created
(`validate_paths` skips its `mkdir`), no group directory is created and no
file is copied — and for each processed book the dry run logs exactly one
`Would create` line per discovered ebook file, at the resolved destination
path.  A non-dry run on the same state creates exactly those `(directory,
name)` pairs **provided** none of them already exists, none is a failing
path, and the computed file names are distinct; when a destination already
exists the real run skips it while the dry run still announces it, so the
claimed unconditional identity of logged and created paths fails (see the
counterexample).
-/
theorem migrate_library_dry_run_spec :
    (∀ (M : Migrator) (filt : Option (List Char)) (fs : FS),
      M.dry_run = true → (migrate_library M filt fs).fs = fs) ∧
    (∀ (M : Migrator) (p : List Char) (st : RunState) (md : Metadata),
      M.dry_run = true → get_book_metadata M p = some md →
      find_ebook_files st.fs p ≠ [] →
      (migrate_book M p st).1.fs = st.fs ∧
      (migrate_book M p st).1.log =
        st.log ++ [Event.infoMigrating (get_series_folder_name md)] ++
          (plannedDests M st.fs p md).map
            (fun pr => Event.wouldCreate (pathJoin pr.1 pr.2))) ∧
    (∀ (M : Migrator) (p : List Char) (st : RunState) (md : Metadata),
      M.dry_run = false → get_book_metadata M p = some md →
      find_ebook_files st.fs p ≠ [] →
      pathJoin M.komga_path (get_series_folder_name md) ∉ st.fs.failing →
      (∀ f ∈ find_ebook_files st.fs p,
        destExists st.fs (pathJoin M.komga_path (get_series_folder_name md))
            (get_file_name md f) = false ∧
          pathJoin (pathJoin M.komga_path (get_series_folder_name md))
            (get_file_name md f) ∉ st.fs.failing) →
      ((find_ebook_files st.fs p).map (get_file_name md)).Nodup →
      (migrate_book M p st).1.fs.files = st.fs.files ++ plannedDests M st.fs p md) :=
  ⟨migrate_library_dry_fs,
   fun M p st md h hmd hne => migrate_book_dry_log M p st md h hmd hne,
   fun M p st md h hmd hne hfail0 hfresh hnd =>
     migrate_book_real_creates M p st md h hmd hne hfail0 hfresh hnd⟩

/--
**C7 counterexample.**  In the world `c7fs` the destination
`k/A/T.epub` already exists: the dry run logs it as a would-create path,
but the real run creates nothing at all — the logged paths are not
identical to the actually created paths.
-/
theorem migrate_library_dry_run_refuted :
    wouldCreatePaths (migrate_library c7Mdry none c7fs).log = [s2l "k/A/T.epub"] ∧
    (migrate_library c7Mreal none c7fs).fs.files = c7fs.files := by
  refine ⟨by decide, by decide⟩

/-- **C7 witness.**  The no-mutation conjunct applied to the dry run of the
one-book world, and the creation conjunct applied to a fresh real run. -/
theorem migrate_library_dry_run_witness :
    (migrate_library c7Mdry none c7fs).fs = c7fs ∧
    (migrate_book c7Mreal (pathJoin (s2l "c") (s2l "b"))
        ⟨⟨0, 0, 0, 0⟩,
          ⟨[s2l "c", s2l "c/b"],
           [(s2l "c", s2l "metadata.db"), (s2l "c/b", s2l "x.epub")], []⟩, []⟩).1.fs.files =
      [(s2l "c", s2l "metadata.db"), (s2l "c/b", s2l "x.epub")] ++
        plannedDests c7Mreal
          ⟨[s2l "c", s2l "c/b"],
           [(s2l "c", s2l "metadata.db"), (s2l "c/b", s2l "x.epub")], []⟩
          (pathJoin (s2l "c") (s2l "b")) c7md :=
  ⟨migrate_library_dry_run_spec.1 c7Mdry none c7fs (by decide),
   migrate_library_dry_run_spec.2.2 c7Mreal (pathJoin (s2l "c") (s2l "b"))
     ⟨⟨0, 0, 0, 0⟩,
       ⟨[s2l "c", s2l "c/b"],
        [(s2l "c", s2l "metadata.db"), (s2l "c/b", s2l "x.epub")], []⟩, []⟩ c7md
     (by decide) (by decide) (by decide) (by decide) (by decide) (by decide)⟩
